import Mathlib

/-!
Shallow embedding of `taxcalc/filings/base/filing.py` (class `Filing`).

Modelling conventions:
* Python dicts are insertion-ordered association lists `List (K × V)`;
  `m[k] = v` replaces in place when the key exists and appends otherwise,
  exactly as CPython dict assignment behaves.
* Python sets are de-duplicated lists (`sinsert` / `sunion` mirror
  `set.add` / `set.update`, which are no-ops on present elements).
* Python strings that get split are `List Char`, so that `str.split('/')`
  (which splits on every occurrence of the separator) can be modelled
  and reasoned about precisely.  String values that are never parsed
  (field values, rvar names and values, filer ids) stay `String`.
* Code that can raise returns `Except`.  Mutating methods that can raise
  part-way return `Except (PyErr × Filing) Filing`: the error also carries
  the filing state at the moment of the raise, because Python exceptions
  do not roll back earlier mutations.
* The external base class `FormMapper` and the external `Form` objects are
  abstracted: their class-level declarations become function-valued fields
  of `FilingClass` / `FormClass`, and the base mapper's instance output
  becomes an explicit parameter where needed.
-/

namespace TaxFiling

/-- Keys of a Python dict (association list), in insertion order. -/
def dkeys {K V : Type} (m : List (K × V)) : List K := m.map Prod.fst

/-- Python `m[k]` / `m.get(k)` lookup: first matching entry. -/
def dget {K V : Type} [DecidableEq K] (k : K) : List (K × V) → Option V
  | [] => none
  | p :: rest => if p.1 = k then some p.2 else dget k rest

/-- Python `m[k] = v`: replace in place when the key exists, append otherwise. -/
def dset {K V : Type} [DecidableEq K] (m : List (K × V)) (k : K) (v : V) : List (K × V) :=
  if k ∈ dkeys m then m.map (fun p => if p.1 = k then (k, v) else p)
  else m ++ [(k, v)]

/-- A Python dict built by successive assignment (dict comprehensions,
`dict(...)` of key/value pairs): later duplicate keys overwrite. -/
def dictComp {K V : Type} [DecidableEq K] (l : List (K × V)) : List (K × V) :=
  l.foldl (fun m q => dset m q.1 q.2) []

/-- Python `s.add(x)`: no-op when already present. -/
def sinsert {A : Type} [DecidableEq A] (s : List A) (x : A) : List A :=
  if x ∈ s then s else s ++ [x]

/-- Python `s.update(t)` / `s | t`: insert the elements of `t` one by one. -/
def sunion {A : Type} [DecidableEq A] (s t : List A) : List A :=
  t.foldl sinsert s

/-- Python `str.split(sep)` for a one-character separator: splits at every
occurrence; `"".split(sep) = ['']`, adjacent separators yield empty parts. -/
def pysplit (c : Char) : List Char → List (List Char)
  | [] => [[]]
  | x :: xs =>
    match pysplit c xs with
    | [] => [[]]
    | y :: ys => if x = c then [] :: y :: ys else (x :: y) :: ys

/-- Number of occurrences of the separator character in a string. -/
def countSep (c : Char) : List Char → Nat
  | [] => 0
  | x :: xs => (if x = c then 1 else 0) + countSep c xs

/-- The composite-key parse used by `Filing.fields_read`, `Filing.fields_written`
and `Filing._write_store`: the Python statement
`form_id, field_key = form_field_key.split('/')`, which succeeds exactly when
the split has two parts and otherwise raises `ValueError`. -/
def splitKey (s : List Char) : Option (List Char × List Char) :=
  match pysplit '/' s with
  | [a, b] => some (a, b)
  | _ => none

/-- Errors raised by the embedded code. -/
inductive PyErr : Type where
  | valueError (msg : String)
  | keyError
  | duplicateInsertion
  deriving DecidableEq

/-- An external `Form` instance, abstracted to the surface `Filing` uses:
`filer_id`, `year`, `form_id()`, the field mapping and the `is_empty` flag. -/
structure Form where
  filer_id : String
  year : Nat
  form_id : List Char
  fields : List (List Char × String)
  is_empty : Bool
  deriving DecidableEq

/-- An external `Form` class, abstracted to its class-level introspection
and its constructor `form_class(year, filer_id=...)` (called `new` here,
since `mk` is taken by the structure constructor). -/
structure FormClass where
  fields_read : Nat → List (List Char)
  fields_written : Nat → List (List Char)
  new : Nat → String → Form

/-- The class-level configuration of a concrete `Filing` subclass together
with the class-level declarations inherited from the external `FormMapper`
base (`super().fields_read` etc.).  The three reserved rvar names default
to `None` in the source, hence `Option String`. -/
structure FilingClass where
  FORM_CLASSES_BY_ID : List (List Char × FormClass)
  FILER_ID_RVAR : Option String
  FILING_YEAR_RVAR : Option String
  WEIGHT_RVAR : Option String
  super_fields_read : Nat → List (List Char)
  super_fields_written : Nat → List (List Char)
  super_rvars_generated : Nat → List String

/-- A `Filing` instance: `__init__` stores the year, the filer id and an
empty form dict. -/
structure Filing where
  year : Nat
  filer_id : String
  forms : List (List Char × Form)
  deriving DecidableEq

/-- `Filing.__init__(year, filer_id)`. -/
def initFiling (year : Nat) (filer_id : String) : Filing :=
  ⟨year, filer_id, []⟩

/-- The grouping loop shared by `Filing.fields_read` and `Filing.fields_written`:
`results[form_id] = results.get(form_id, set()) | {field_key}` over the
composite keys, raising `ValueError` when a key does not split in two. -/
def groupByForm : List (List Char) → List (List Char × List (List Char)) →
    Except PyErr (List (List Char × List (List Char)))
  | [], results => .ok results
  | key :: rest, results =>
    match splitKey key with
    | none => .error (.valueError "not enough values to unpack")
    | some (fid, fk) =>
        groupByForm rest (dset results fid (sunion ((dget fid results).getD []) [fk]))

/-- `Filing.fields_read(year)`: group the base mapper's composite keys by form. -/
def fieldsRead (c : FilingClass) (year : Nat) :
    Except PyErr (List (List Char × List (List Char))) :=
  groupByForm (c.super_fields_read year) []

/-- `Filing.fields_written(year)`: group the base mapper's composite keys by form. -/
def fieldsWritten (c : FilingClass) (year : Nat) :
    Except PyErr (List (List Char × List (List Char))) :=
  groupByForm (c.super_fields_written year) []

/-- `Filing.rvars_generated(year)`: the base mapper's set extended with the
three reserved rvar names.  In Python `results.update({cls.FILER_ID_RVAR,
cls.FILING_YEAR_RVAR, cls.WEIGHT_RVAR})` inserts the attribute values even
when they are `None` (`None` is hashable), so the result is a set of
`Option String` and the call never raises. -/
def rvarsGenerated (c : FilingClass) (year : Nat) : List (Option String) :=
  sunion ((c.super_rvars_generated year).map some)
    [c.FILER_ID_RVAR, c.FILING_YEAR_RVAR, c.WEIGHT_RVAR]

/-- The first loop of `fields_read_with_forms` / `fields_written_with_forms`:
`results[form_id] = form_class.<sel>(year)` over `FORM_CLASSES_BY_ID`. -/
def buildBase (c : FilingClass) (sel : FormClass → Nat → List (List Char)) (year : Nat) :
    List (List Char × List (List Char)) :=
  c.FORM_CLASSES_BY_ID.foldl (fun results p => dset results p.1 (sel p.2 year)) []

/-- The second loop of `fields_read_with_forms` / `fields_written_with_forms`:
`results[form_id].update(fields)`, which raises `KeyError` when `form_id`
is not already a key of `results`. -/
def mergeOwn : List (List Char × List (List Char)) → List (List Char × List (List Char)) →
    Except PyErr (List (List Char × List (List Char)))
  | [], results => .ok results
  | (fid, fs) :: rest, results =>
    match dget fid results with
    | none => .error .keyError
    | some s => mergeOwn rest (dset results fid (sunion s fs))

/-- `Filing.fields_read_with_forms(year)`. -/
def fieldsReadWithForms (c : FilingClass) (year : Nat) :
    Except PyErr (List (List Char × List (List Char))) :=
  match fieldsRead c year with
  | .error e => .error e
  | .ok own => mergeOwn own (buildBase c (fun fc => fc.fields_read) year)

/-- `Filing.fields_written_with_forms(year)`. -/
def fieldsWrittenWithForms (c : FilingClass) (year : Nat) :
    Except PyErr (List (List Char × List (List Char))) :=
  match fieldsWritten c year with
  | .error e => .error e
  | .ok own => mergeOwn own (buildBase c (fun fc => fc.fields_written) year)

/-- Modelled from the spec: `update_dict_ex` lives in `taxcalc.utils`, which is
not under `src/`.  The spec describes it as "the duplicate-key-rejecting
insertion primitive used for `add_form`": an explicit insert-or-fail on the
form mapping, raising a duplicate-insertion failure when the key exists
(no silent overwrite) and inserting otherwise. -/
def update_dict_ex {K V : Type} [DecidableEq K] (m : List (K × V)) (k : K) (v : V) :
    Except PyErr (List (K × V)) :=
  if k ∈ dkeys m then .error .duplicateInsertion else .ok (m ++ [(k, v)])

/-- `Filing.add_form(form)`: validate filer id, then year, then insert-or-fail
under `form.form_id()`.  Every raise happens before the mutation, so the
error carries the unchanged filing. -/
def addForm (f : Filing) (m : Form) : Except (PyErr × Filing) Filing :=
  if m.filer_id ≠ f.filer_id then
    .error (.valueError "Supplied form is for a different tax filer.", f)
  else if m.year ≠ f.year then
    .error (.valueError "Supplied form is for a different year.", f)
  else
    match update_dict_ex f.forms m.form_id m with
    | .error e => .error (e, f)
    | .ok forms' => .ok { f with forms := forms' }

/-- `Filing.drop_empty_forms()`: delete every form whose `is_empty` holds
(iterating over a snapshot of the keys, which amounts to a filter). -/
def dropEmptyForms (f : Filing) : Filing :=
  { f with forms := f.forms.filter (fun p => !p.2.is_empty) }

/-- `Filing.fill_inputs()`: for every (form id, field) declared by
`fields_read(self.year)` whose form id is currently held, set the field
to `'0'`. -/
def fillInputs (c : FilingClass) (f : Filing) : Except (PyErr × Filing) Filing :=
  match fieldsRead c f.year with
  | .error e => .error (e, f)
  | .ok m =>
    .ok (m.foldl (fun g p =>
      if (dget p.1 g.forms).isSome then
        p.2.foldl (fun g' field =>
          match dget p.1 g'.forms with
          | some form =>
              let form' := { form with fields := dset form.fields field "0" }
              { g' with forms := dset g'.forms p.1 form' }
          | none => g') g
      else g) f)

/-- The key/value pairs enumerated by `Filing._read_store`'s comprehension,
in iteration order: `form_id + '/' + field_key` mapped to the field value. -/
def readStoreList (f : Filing) : List (List Char × String) :=
  f.forms.flatMap (fun p => p.2.fields.map (fun q => (p.1 ++ '/' :: q.1, q.2)))

/-- `Filing._read_store()`: the dict built from that comprehension. -/
def readStore (f : Filing) : List (List Char × String) :=
  dictComp (readStoreList f)

/-- One iteration of `Filing._write_store`'s loop: split the composite key
(`ValueError` when it does not split in two), look the form up
(`KeyError` when absent — forms are not created implicitly), set the field. -/
def writeStoreStep (f : Filing) (kv : List Char × String) : Except (PyErr × Filing) Filing :=
  match splitKey kv.1 with
  | none => .error (.valueError "not enough values to unpack", f)
  | some (fid, fk) =>
    match dget fid f.forms with
    | none => .error (.keyError, f)
    | some form =>
      let form' := { form with fields := dset form.fields fk kv.2 }
      .ok { f with forms := dset f.forms fid form' }

/-- The loop of `Filing._write_store` over the items of `data`. -/
def writeStoreGo (f : Filing) : List (List Char × String) → Except (PyErr × Filing) Filing
  | [] => .ok f
  | kv :: rest =>
    match writeStoreStep f kv with
    | .error e => .error e
    | .ok f' => writeStoreGo f' rest

/-- `Filing._write_store(data)`. -/
def writeStore (f : Filing) (data : List (List Char × String)) :
    Except (PyErr × Filing) Filing :=
  writeStoreGo f data

/-- `Filing.read_rvars()`: the base mapper's own output (passed in as
`superOut`, a dict of rvar names to values) updated with the three reserved
entries `{FILER_ID_RVAR: str(filer_id), FILING_YEAR_RVAR: str(year),
WEIGHT_RVAR: '1'}`.  The reserved names may be `None` (unset), so the
result is keyed by `Option String`; `str` of the string-valued filer id is
the id itself.  Sequential assignment agrees with the dict-literal-then-
update of the source on every lookup. -/
def readRvars (c : FilingClass) (f : Filing) (superOut : List (String × String)) :
    List (Option String × String) :=
  dset (dset (dset (superOut.map (fun p => ((some p.1 : Option String), p.2)))
    c.FILER_ID_RVAR f.filer_id)
    c.FILING_YEAR_RVAR (toString f.year))
    c.WEIGHT_RVAR "1"

/-- The loop of `Filing.ensure_written_forms_available` over the form ids of
`fields_written_with_forms(self.year)`: create and `add_form` each absent
form.  The registry lookup and `add_form` raise part-way, carrying the
partially extended filing. -/
def ensureGo (c : FilingClass) : List (List Char) → Filing → Except (PyErr × Filing) Filing
  | [], f => .ok f
  | fid :: rest, f =>
    if (dget fid f.forms).isSome then ensureGo c rest f
    else
      match dget fid c.FORM_CLASSES_BY_ID with
      | none => .error (.keyError, f)
      | some fc =>
        match addForm f (fc.new f.year f.filer_id) with
        | .error e => .error e
        | .ok f' => ensureGo c rest f'

/-- `Filing.ensure_written_forms_available()`. -/
def ensureWrittenFormsAvailable (c : FilingClass) (f : Filing) :
    Except (PyErr × Filing) Filing :=
  match fieldsWrittenWithForms c f.year with
  | .error e => .error (e, f)
  | .ok res => ensureGo c (dkeys res) f

/-- Well-formedness inherited from Python dicts: form ids are unique, and
each form's field keys are unique. -/
def FilingWF (f : Filing) : Prop :=
  (dkeys f.forms).Nodup ∧ ∀ p ∈ f.forms, (dkeys p.2.fields).Nodup

/-- The spec's filing invariant: every held form carries the filing's
filer id and year. -/
def FormsOk (f : Filing) : Prop :=
  ∀ p ∈ f.forms, p.2.filer_id = f.filer_id ∧ p.2.year = f.year

instance (f : Filing) : Decidable (FilingWF f) :=
  inferInstanceAs (Decidable ((dkeys f.forms).Nodup ∧ ∀ p ∈ f.forms, (dkeys p.2.fields).Nodup))

instance (f : Filing) : Decidable (FormsOk f) :=
  inferInstanceAs (Decidable (∀ p ∈ f.forms, p.2.filer_id = f.filer_id ∧ p.2.year = f.year))

/-- Decidable form of "this composite key references a form currently held by
the filing": the key parses in two and its form-id component is a key of
the form dict. -/
def keyRefsForm (f : Filing) (key : List Char) : Bool :=
  match splitKey key with
  | some (fid, _) => decide (fid ∈ dkeys f.forms)
  | none => false

/-! ### Concrete instances used to instantiate the theorems -/

/-- A concrete form used to instantiate the round-trip theorem. -/
def rtForm : Form :=
  { filer_id := "0", year := 2017, form_id := ['f'],
    fields := [(['a'], "1"), (['b'], "2")], is_empty := false }

/-- A concrete filing holding `rtForm` under id `"f"`. -/
def rtFiling : Filing :=
  { year := 2017, filer_id := "0", forms := [(['f'], rtForm)] }

/-- A form whose filer id differs from `rtFiling`'s. -/
def mmForm : Form :=
  { filer_id := "1", year := 2017, form_id := ['g'], fields := [], is_empty := true }

/-- An empty filing for filer `"0"`, year 2017. -/
def emptyFiling : Filing := initFiling 2017 "0"

/-- First of two forms sharing form id `"g"`. -/
def dupFormA : Form :=
  { filer_id := "0", year := 2017, form_id := ['g'], fields := [(['a'], "1")], is_empty := false }

/-- Second form sharing form id `"g"`. -/
def dupFormB : Form :=
  { filer_id := "0", year := 2017, form_id := ['g'], fields := [(['b'], "2")], is_empty := false }

/-- A form class whose constructor produces an empty form with the declared id. -/
def exFormClass : FormClass :=
  { fields_read := fun _ => [['a']],
    fields_written := fun _ => [['x']],
    new := fun y fid =>
      { filer_id := fid, year := y, form_id := ['A'], fields := [], is_empty := true } }

/-- A filing class with one declared form class `"A"`, all reserved rvar names
set, and one composite declaration per direction. -/
def exFilingClass : FilingClass :=
  { FORM_CLASSES_BY_ID := [(['A'], exFormClass)],
    FILER_ID_RVAR := some "fid",
    FILING_YEAR_RVAR := some "year",
    WEIGHT_RVAR := some "wt",
    super_fields_read := fun _ => [['A', '/', 'b']],
    super_fields_written := fun _ => [['A', '/', 'x']],
    super_rvars_generated := fun _ => ["g"] }

/-- The filing produced by running `ensure_written_forms_available` on
`emptyFiling` under `exFilingClass`. -/
def ensuredFiling : Filing :=
  { year := 2017, filer_id := "0", forms := [(['A'], exFormClass.new 2017 "0")] }

/-- A filing class that leaves all three reserved rvar names unset. -/
def unsetFilingClass : FilingClass :=
  { FORM_CLASSES_BY_ID := [],
    FILER_ID_RVAR := none,
    FILING_YEAR_RVAR := none,
    WEIGHT_RVAR := none,
    super_fields_read := fun _ => [],
    super_fields_written := fun _ => [],
    super_rvars_generated := fun _ => ["g"] }

/-- A filing class whose filing-level declarations mention form id `"A"`,
which is absent from its (empty) form-class registry. -/
def danglingFilingClass : FilingClass :=
  { FORM_CLASSES_BY_ID := [],
    FILER_ID_RVAR := none,
    FILING_YEAR_RVAR := none,
    WEIGHT_RVAR := none,
    super_fields_read := fun _ => [['A', '/', 'b']],
    super_fields_written := fun _ => [['A', '/', 'x']],
    super_rvars_generated := fun _ => [] }

/-! ### Association-list (Python dict) lemmas -/

theorem mem_dkeys_iff {K V : Type} {m : List (K × V)} {x : K} :
    x ∈ dkeys m ↔ ∃ v, (x, v) ∈ m := by
  constructor
  · intro h
    rcases List.mem_map.mp h with ⟨⟨a, b⟩, hm, he⟩
    exact ⟨b, by simpa [← he] using hm⟩
  · rintro ⟨v, h⟩
    exact List.mem_map.mpr ⟨(x, v), h, rfl⟩

theorem dget_eq_none_of_not_mem {K V : Type} [DecidableEq K] {m : List (K × V)} {k : K}
    (h : k ∉ dkeys m) : dget k m = none := by
  induction m with
  | nil => rfl
  | cons p rest ih =>
    rw [dkeys, List.map_cons, List.mem_cons] at h
    push_neg at h
    rw [dget, if_neg (fun hp => h.1 hp.symm)]
    exact ih h.2

theorem mem_of_dget_eq_some {K V : Type} [DecidableEq K] {m : List (K × V)} {k : K} {v : V}
    (h : dget k m = some v) : (k, v) ∈ m := by
  induction m with
  | nil => exact absurd h (by simp [dget])
  | cons p rest ih =>
    rw [dget] at h
    by_cases hp : p.1 = k
    · rw [if_pos hp] at h
      exact List.mem_cons.mpr (Or.inl (by cases p; simp_all))
    · rw [if_neg hp] at h
      exact List.mem_cons_of_mem _ (ih h)

theorem dget_isSome_iff {K V : Type} [DecidableEq K] {m : List (K × V)} {k : K} :
    (dget k m).isSome ↔ k ∈ dkeys m := by
  constructor
  · intro h
    rcases Option.isSome_iff_exists.mp h with ⟨v, hv⟩
    exact mem_dkeys_iff.mpr ⟨v, mem_of_dget_eq_some hv⟩
  · intro h
    induction m with
    | nil => cases h
    | cons p rest ih =>
      rw [dget]
      by_cases hp : p.1 = k
      · rw [if_pos hp]; rfl
      · rw [if_neg hp]
        refine ih ?_
        rcases List.mem_cons.mp (by rwa [dkeys, List.map_cons] at h) with h' | h'
        · exact absurd h'.symm hp
        · exact h'

theorem dget_eq_some_of_mem_nodup {K V : Type} [DecidableEq K] {m : List (K × V)} {k : K} {v : V}
    (hnd : (dkeys m).Nodup) (h : (k, v) ∈ m) : dget k m = some v := by
  induction m with
  | nil => cases h
  | cons p rest ih =>
    rw [dkeys, List.map_cons, List.nodup_cons] at hnd
    rcases List.mem_cons.mp h with he | hm
    · rw [dget, ← he, if_pos rfl]
    · have hk : k ∈ dkeys rest := mem_dkeys_iff.mpr ⟨v, hm⟩
      have hne : p.1 ≠ k := fun hp => hnd.1 (hp ▸ hk)
      rw [dget, if_neg hne]
      exact ih hnd.2 hm

theorem dget_append_left {K V : Type} [DecidableEq K] {m l : List (K × V)} {k : K} {v : V}
    (h : dget k m = some v) : dget k (m ++ l) = some v := by
  induction m with
  | nil => exact absurd h (by simp [dget])
  | cons p rest ih =>
    rw [dget] at h
    rw [List.cons_append, dget]
    by_cases hp : p.1 = k
    · rwa [if_pos hp] at h ⊢
    · rw [if_neg hp] at h ⊢
      exact ih h

theorem dget_append_right {K V : Type} [DecidableEq K] {m l : List (K × V)} {k : K}
    (h : dget k m = none) : dget k (m ++ l) = dget k l := by
  induction m with
  | nil => rfl
  | cons p rest ih =>
    rw [dget] at h
    rw [List.cons_append, dget]
    by_cases hp : p.1 = k
    · rw [if_pos hp] at h; cases h
    · rw [if_neg hp] at h ⊢
      exact ih h

theorem mem_dset {K V : Type} [DecidableEq K] {m : List (K × V)} {k : K} {v : V}
    {p : K × V} (h : p ∈ dset m k v) : p ∈ m ∨ p = (k, v) := by
  rw [dset] at h
  by_cases hk : k ∈ dkeys m
  · rw [if_pos hk] at h
    rcases List.mem_map.mp h with ⟨q, hq, he⟩
    by_cases hq1 : q.1 = k
    · right; rw [← he, if_pos hq1]
    · left; rwa [← he, if_neg hq1]
  · rw [if_neg hk] at h
    rcases List.mem_append.mp h with hm | hm
    · exact Or.inl hm
    · exact Or.inr (List.mem_singleton.mp hm)

theorem dkeys_dset_of_mem {K V : Type} [DecidableEq K] {m : List (K × V)} {k : K} {v : V}
    (hk : k ∈ dkeys m) : dkeys (dset m k v) = dkeys m := by
  rw [dset, if_pos hk, dkeys, dkeys, List.map_map]
  refine List.map_congr_left (fun p _ => ?_)
  by_cases hp : p.1 = k
  · simp [Function.comp, hp]
  · simp [Function.comp, hp]

theorem mem_dkeys_dset {K V : Type} [DecidableEq K] {m : List (K × V)} {k x : K} {v : V} :
    x ∈ dkeys (dset m k v) ↔ x ∈ dkeys m ∨ x = k := by
  by_cases hk : k ∈ dkeys m
  · rw [dkeys_dset_of_mem hk]
    constructor
    · exact Or.inl
    · rintro (h | rfl)
      · exact h
      · exact hk
  · rw [dset, if_neg hk, dkeys, List.map_append]
    simp [dkeys]

theorem nodup_dkeys_dset {K V : Type} [DecidableEq K] {m : List (K × V)} {k : K} {v : V}
    (hnd : (dkeys m).Nodup) : (dkeys (dset m k v)).Nodup := by
  by_cases hk : k ∈ dkeys m
  · rwa [dkeys_dset_of_mem hk]
  · rw [dset, if_neg hk, dkeys, List.map_append]
    refine List.Nodup.append hnd (List.nodup_singleton k) ?_
    intro x hx hx'
    rcases List.mem_singleton.mp hx' with rfl
    exact hk hx

theorem map_replace_of_not_mem {K V : Type} [DecidableEq K] {m : List (K × V)} {k : K} {v : V}
    (hk : k ∉ dkeys m) : m.map (fun p => if p.1 = k then (k, v) else p) = m := by
  conv_rhs => rw [← List.map_id m]
  refine List.map_congr_left (fun q hq => ?_)
  have hq1 : q.1 ≠ k := fun hq1 => hk (hq1 ▸ mem_dkeys_iff.mpr ⟨q.2, by simpa using hq⟩)
  simp [hq1]

theorem dget_map_replace_self {K V : Type} [DecidableEq K] {m : List (K × V)} {k : K} {v : V}
    (hk : k ∈ dkeys m) : dget k (m.map (fun p => if p.1 = k then (k, v) else p)) = some v := by
  induction m with
  | nil => cases hk
  | cons p rest ih =>
    rw [List.map_cons]
    by_cases hp : p.1 = k
    · rw [if_pos hp, dget, if_pos rfl]
    · rw [if_neg hp, dget, if_neg hp]
      refine ih ?_
      rcases List.mem_cons.mp (by rwa [dkeys, List.map_cons] at hk) with h | h
      · exact absurd h.symm hp
      · exact h

theorem dget_map_replace_ne {K V : Type} [DecidableEq K] {m : List (K × V)} {k x : K} {v : V}
    (hx : x ≠ k) : dget x (m.map (fun p => if p.1 = k then (k, v) else p)) = dget x m := by
  induction m with
  | nil => rfl
  | cons p rest ih =>
    rw [List.map_cons]
    by_cases hp : p.1 = k
    · rw [if_pos hp, dget, dget, if_neg (fun h : k = x => hx h.symm),
        if_neg (fun h : p.1 = x => hx ((hp.symm.trans h).symm))]
      exact ih
    · rw [if_neg hp, dget, dget]
      by_cases hpx : p.1 = x
      · rw [if_pos hpx, if_pos hpx]
      · rw [if_neg hpx, if_neg hpx]
        exact ih

theorem dget_dset_self {K V : Type} [DecidableEq K] {m : List (K × V)} {k : K} {v : V} :
    dget k (dset m k v) = some v := by
  rw [dset]
  by_cases hk : k ∈ dkeys m
  · rw [if_pos hk]
    exact dget_map_replace_self hk
  · rw [if_neg hk, dget_append_right (dget_eq_none_of_not_mem hk), dget, if_pos rfl]

theorem dget_dset_ne {K V : Type} [DecidableEq K] {m : List (K × V)} {k x : K} {v : V}
    (hx : x ≠ k) : dget x (dset m k v) = dget x m := by
  rw [dset]
  by_cases hk : k ∈ dkeys m
  · rw [if_pos hk]
    exact dget_map_replace_ne hx
  · rw [if_neg hk]
    cases hv : dget x m with
    | some w => rw [dget_append_left hv]
    | none =>
      rw [dget_append_right hv, dget, if_neg (fun h : k = x => hx h.symm), dget]

theorem dset_eq_of_dget {K V : Type} [DecidableEq K] {m : List (K × V)} {k : K} {v : V}
    (hnd : (dkeys m).Nodup) (h : dget k m = some v) : dset m k v = m := by
  have hk : k ∈ dkeys m := dget_isSome_iff.mp (by simp [h])
  rw [dset, if_pos hk]
  clear hk
  induction m with
  | nil => rfl
  | cons p rest ih =>
    rw [dkeys, List.map_cons, List.nodup_cons] at hnd
    rw [dget] at h
    rw [List.map_cons]
    by_cases hp : p.1 = k
    · rw [if_pos hp] at h ⊢
      have hv := Option.some.inj h
      have hkr : k ∉ dkeys rest := hp ▸ hnd.1
      rw [map_replace_of_not_mem hkr]
      cases p
      simp_all
    · rw [if_neg hp] at h ⊢
      rw [ih hnd.2 h]

/-! ### dictComp (Python dict comprehension) lemmas -/

theorem foldl_dset_mem {K V : Type} [DecidableEq K] {l m0 : List (K × V)} {p : K × V}
    (h : p ∈ l.foldl (fun m q => dset m q.1 q.2) m0) : p ∈ m0 ∨ p ∈ l := by
  induction l generalizing m0 with
  | nil => exact Or.inl h
  | cons q rest ih =>
    rw [List.foldl_cons] at h
    rcases ih h with hm | hm
    · rcases mem_dset hm with hm' | hm'
      · exact Or.inl hm'
      · exact Or.inr (by cases q; simp_all)
    · exact Or.inr (List.mem_cons_of_mem _ hm)

theorem mem_dkeys_foldl_dset {K V : Type} [DecidableEq K] {l m0 : List (K × V)} {x : K} :
    x ∈ dkeys (l.foldl (fun m q => dset m q.1 q.2) m0) ↔ x ∈ dkeys m0 ∨ x ∈ dkeys l := by
  induction l generalizing m0 with
  | nil => simp [dkeys]
  | cons q rest ih =>
    rw [List.foldl_cons, ih, mem_dkeys_dset]
    simp only [dkeys, List.map_cons, List.mem_cons]
    tauto

theorem mem_of_mem_dictComp {K V : Type} [DecidableEq K] {l : List (K × V)} {p : K × V}
    (h : p ∈ dictComp l) : p ∈ l := by
  rcases foldl_dset_mem h with h' | h'
  · cases h'
  · exact h'

theorem mem_dkeys_dictComp {K V : Type} [DecidableEq K] {l : List (K × V)} {x : K} :
    x ∈ dkeys (dictComp l) ↔ x ∈ dkeys l := by
  rw [dictComp, mem_dkeys_foldl_dset]
  simp [dkeys]

theorem foldl_dset_eq_append {K V : Type} [DecidableEq K] {l m0 : List (K × V)}
    (hnd : (dkeys (m0 ++ l)).Nodup) : l.foldl (fun m q => dset m q.1 q.2) m0 = m0 ++ l := by
  induction l generalizing m0 with
  | nil => simp
  | cons q rest ih =>
    rw [List.foldl_cons]
    have hq : q.1 ∉ dkeys m0 := by
      rw [dkeys, List.map_append] at hnd
      intro hc
      rcases (List.nodup_append.mp hnd).2.2 with hdis
      exact hdis hc (by simp [dkeys])
    rw [dset, if_neg hq]
    have : m0 ++ [q] ++ rest = m0 ++ q :: rest := by simp
    rw [ih (by rw [this]; exact hnd), this]

theorem dictComp_eq_self {K V : Type} [DecidableEq K] {l : List (K × V)}
    (hnd : (dkeys l).Nodup) : dictComp l = l := by
  rw [dictComp, foldl_dset_eq_append (by simpa using hnd), List.nil_append]

/-! ### Python set lemmas -/

theorem mem_sinsert {A : Type} [DecidableEq A] {s : List A} {x y : A} :
    x ∈ sinsert s y ↔ x ∈ s ∨ x = y := by
  rw [sinsert]
  by_cases hy : y ∈ s
  · rw [if_pos hy]
    constructor
    · exact Or.inl
    · rintro (h | rfl) <;> assumption
  · rw [if_neg hy]
    simp

theorem mem_sunion {A : Type} [DecidableEq A] {s t : List A} {x : A} :
    x ∈ sunion s t ↔ x ∈ s ∨ x ∈ t := by
  induction t generalizing s with
  | nil => simp [sunion]
  | cons y rest ih =>
    rw [sunion, List.foldl_cons, ← sunion, ih, mem_sinsert]
    constructor
    · rintro (⟨h | h⟩ | h)
      · exact Or.inl h
      · exact Or.inr (List.mem_cons.mpr (Or.inl h))
      · exact Or.inr (List.mem_cons_of_mem _ h)
    · rintro (h | h)
      · exact Or.inl (Or.inl h)
      · rcases List.mem_cons.mp h with h | h
        · exact Or.inl (Or.inr h)
        · exact Or.inr h

/-! ### Split / composite-key lemmas -/

theorem pysplit_ne_nil {c : Char} {s : List Char} : pysplit c s ≠ [] := by
  cases s with
  | nil => simp [pysplit]
  | cons x xs =>
    rw [pysplit]
    cases h : pysplit c xs with
    | nil => simp
    | cons y ys =>
      by_cases hx : x = c
      · simp [hx]
      · simp [hx]

theorem countSep_append {c : Char} {a b : List Char} :
    countSep c (a ++ b) = countSep c a + countSep c b := by
  induction a with
  | nil => simp [countSep]
  | cons x xs ih =>
    rw [List.cons_append, countSep, countSep, ih]
    omega

theorem countSep_eq_zero_iff {c : Char} {s : List Char} :
    countSep c s = 0 ↔ c ∉ s := by
  induction s with
  | nil => simp [countSep]
  | cons x xs ih =>
    rw [countSep, List.mem_cons]
    by_cases hx : x = c
    · simp [hx]
    · rw [if_neg hx]
      simp only [Nat.zero_add, ih]
      constructor
      · intro h hc
        rcases hc with hc | hc
        · exact hx hc.symm
        · exact h hc
      · intro h hc
        exact h (Or.inr hc)

theorem pysplit_cons_eq {c x : Char} {xs y : List Char} {ys : List (List Char)}
    (h : pysplit c xs = y :: ys) :
    pysplit c (x :: xs) = if x = c then [] :: y :: ys else (x :: y) :: ys := by
  rw [pysplit, h]

theorem length_pysplit {c : Char} {s : List Char} :
    (pysplit c s).length = countSep c s + 1 := by
  induction s with
  | nil => simp [pysplit, countSep]
  | cons x xs ih =>
    cases h : pysplit c xs with
    | nil => exact absurd h pysplit_ne_nil
    | cons y ys =>
      rw [h] at ih
      rw [countSep, pysplit_cons_eq h]
      by_cases hx : x = c
      · rw [if_pos hx, if_pos hx]
        simp at ih ⊢
        omega
      · rw [if_neg hx, if_neg hx]
        simp at ih ⊢
        omega

theorem pysplit_of_not_mem {c : Char} {s : List Char} (h : c ∉ s) : pysplit c s = [s] := by
  induction s with
  | nil => rfl
  | cons x xs ih =>
    rw [List.mem_cons] at h
    push_neg at h
    rw [pysplit_cons_eq (ih h.2), if_neg (fun hx => h.1 hx.symm)]

theorem pysplit_append_sep {c : Char} {a b : List Char} (h : c ∉ a) :
    pysplit c (a ++ c :: b) = a :: pysplit c b := by
  induction a with
  | nil =>
    rw [List.nil_append]
    cases hb : pysplit c b with
    | nil => exact absurd hb pysplit_ne_nil
    | cons y ys => rw [pysplit_cons_eq hb, if_pos rfl]
  | cons x xs ih =>
    rw [List.mem_cons] at h
    push_neg at h
    rw [List.cons_append, pysplit_cons_eq (ih h.2), if_neg (fun hx => h.1 hx.symm)]

theorem splitKey_isSome_iff {s : List Char} :
    (splitKey s).isSome ↔ countSep '/' s = 1 := by
  have hlen := length_pysplit (c := '/') (s := s)
  rw [splitKey]
  cases h : pysplit '/' s with
  | nil => exact absurd h pysplit_ne_nil
  | cons y ys =>
    rw [h] at hlen
    cases ys with
    | nil =>
      simp at hlen ⊢
      omega
    | cons z zs =>
      cases zs with
      | nil =>
        simp at hlen ⊢
        omega
      | cons w ws =>
        simp at hlen ⊢
        omega

theorem splitKey_append {a b : List Char} (ha : '/' ∉ a) (hb : '/' ∉ b) :
    splitKey (a ++ '/' :: b) = some (a, b) := by
  rw [splitKey, pysplit_append_sep ha, pysplit_of_not_mem hb]

theorem splitKey_append_inv {a b : List Char} {q : List Char × List Char}
    (h : splitKey (a ++ '/' :: b) = some q) : q = (a, b) := by
  have hcount : countSep '/' (a ++ '/' :: b) = 1 :=
    splitKey_isSome_iff.mp (by simp [h])
  rw [countSep_append, countSep] at hcount
  rw [if_pos rfl] at hcount
  have ha : '/' ∉ a := countSep_eq_zero_iff.mp (by omega)
  have hb : '/' ∉ b := countSep_eq_zero_iff.mp (by omega)
  rw [splitKey_append ha hb] at h
  exact (Option.some.inj h).symm

/-! ### add_form lemmas -/

theorem addForm_ok {f : Filing} {m : Form} {f' : Filing} (h : addForm f m = .ok f') :
    m.filer_id = f.filer_id ∧ m.year = f.year ∧ m.form_id ∉ dkeys f.forms ∧
      f' = { f with forms := f.forms ++ [(m.form_id, m)] } := by
  rw [addForm] at h
  by_cases h1 : m.filer_id ≠ f.filer_id
  · rw [if_pos h1] at h; cases h
  · rw [if_neg h1] at h
    by_cases h2 : m.year ≠ f.year
    · rw [if_pos h2] at h; cases h
    · rw [if_neg h2] at h
      push_neg at h1 h2
      rw [update_dict_ex] at h
      by_cases h3 : m.form_id ∈ dkeys f.forms
      · rw [if_pos h3] at h; cases h
      · rw [if_neg h3] at h
        injection h with h4
        exact ⟨h1, h2, h3, h4.symm⟩

theorem addForm_err {f : Filing} {m : Form} {e : PyErr} {f' : Filing}
    (h : addForm f m = .error (e, f')) : f' = f := by
  rw [addForm] at h
  by_cases h1 : m.filer_id ≠ f.filer_id
  · rw [if_pos h1] at h
    injection h with h4
    exact (congrArg Prod.snd h4).symm
  · rw [if_neg h1] at h
    by_cases h2 : m.year ≠ f.year
    · rw [if_pos h2] at h
      injection h with h4
      exact (congrArg Prod.snd h4).symm
    · rw [if_neg h2] at h
      rw [update_dict_ex] at h
      by_cases h3 : m.form_id ∈ dkeys f.forms
      · rw [if_pos h3] at h
        injection h with h4
        exact (congrArg Prod.snd h4).symm
      · rw [if_neg h3] at h
        cases h

/-! ### _write_store lemmas -/

theorem writeStoreGo_const {f : Filing} {data : List (List Char × String)}
    (h : ∀ p ∈ data, writeStoreStep f p = .ok f) : writeStoreGo f data = .ok f := by
  induction data with
  | nil => rfl
  | cons kv rest ih =>
    rw [writeStoreGo, h kv (List.mem_cons_self kv rest)]
    exact ih (fun p hp => h p (List.mem_cons_of_mem _ hp))

theorem writeStoreStep_id {f : Filing} {fid k : List Char} {v : String} {form : Form}
    (hwf : FilingWF f) (hfm : (fid, form) ∈ f.forms) (hkv : (k, v) ∈ form.fields)
    (hsplit : (splitKey (fid ++ '/' :: k)).isSome) :
    writeStoreStep f (fid ++ '/' :: k, v) = .ok f := by
  have hcount : countSep '/' (fid ++ '/' :: k) = 1 := splitKey_isSome_iff.mp hsplit
  rw [countSep_append, countSep, if_pos rfl] at hcount
  have ha : '/' ∉ fid := countSep_eq_zero_iff.mp (by omega)
  have hb : '/' ∉ k := countSep_eq_zero_iff.mp (by omega)
  have hform : dget fid f.forms = some form := dget_eq_some_of_mem_nodup hwf.1 hfm
  have hfield : dget k form.fields = some v :=
    dget_eq_some_of_mem_nodup (hwf.2 (fid, form) hfm) hkv
  have h1 : dset form.fields k v = form.fields :=
    dset_eq_of_dget (hwf.2 (fid, form) hfm) hfield
  have h2 : ({ form with fields := form.fields } : Form) = form := rfl
  have h3 : dset f.forms fid form = f.forms := dset_eq_of_dget hwf.1 hform
  simp only [writeStoreStep, splitKey_append ha hb, hform, h1, h2, h3]

/-- C1: for every well-formed filing in which every composite key produced by
`_read_store` references a form currently held by the filing,
`_write_store(_read_store())` returns normally and leaves the filing — in
particular every held form's field mapping — exactly as it was. -/
theorem readWriteStore_roundtrip (f : Filing) (hwf : FilingWF f)
    (href : ∀ key ∈ dkeys (readStore f), keyRefsForm f key = true) :
    writeStore f (readStore f) = .ok f := by
  rw [writeStore]
  apply writeStoreGo_const
  intro p hp
  have hpl : p ∈ readStoreList f := mem_of_mem_dictComp hp
  rw [readStoreList] at hpl
  rcases List.mem_flatMap.mp hpl with ⟨⟨fid, form⟩, hq, hpq⟩
  rcases List.mem_map.mp hpq with ⟨⟨k, v⟩, hr, he⟩
  have hkey : p.1 ∈ dkeys (readStore f) := List.mem_map.mpr ⟨p, hp, rfl⟩
  have href' := href p.1 hkey
  rw [keyRefsForm] at href'
  rw [← he] at href' ⊢
  cases hs : splitKey (fid ++ '/' :: k) with
  | none => rw [hs] at href'; cases href'
  | some q => exact writeStoreStep_id hwf hq hr (by rw [hs]; rfl)

/-- Closed instantiation of the C1 round-trip theorem at a concrete filing. -/
theorem readWriteStore_roundtrip_witness :
    FilingWF rtFiling ∧ writeStore rtFiling (readStore rtFiling) = .ok rtFiling :=
  ⟨by decide, readWriteStore_roundtrip rtFiling (by decide) (by decide)⟩

/-- C2: `add_form` with a form whose filer id differs from the filing's raises
the filer-mismatch `ValueError`; the error carries the filing unchanged, so
the form mapping is untouched. -/
theorem addForm_filer_mismatch (f : Filing) (m : Form) (h : m.filer_id ≠ f.filer_id) :
    addForm f m = .error (.valueError "Supplied form is for a different tax filer.", f) := by
  rw [addForm, if_pos h]

/-- Closed instantiation of the C2 filer-mismatch theorem. -/
theorem addForm_filer_mismatch_witness :
    mmForm.filer_id ≠ rtFiling.filer_id ∧
      addForm rtFiling mmForm =
        .error (.valueError "Supplied form is for a different tax filer.", rtFiling) :=
  ⟨by decide, addForm_filer_mismatch rtFiling mmForm (by decide)⟩

/-- C3: after a matching form is added successfully, adding a second matching
form with the same form id raises the duplicate-insertion failure with the
filing unchanged, and the filing still maps that id to the first form. -/
theorem addForm_duplicate_keeps_first (f f' : Filing) (m1 m2 : Form)
    (h1 : m1.filer_id = f.filer_id) (h2 : m1.year = f.year)
    (h3 : m2.filer_id = f.filer_id) (h4 : m2.year = f.year)
    (h5 : m2.form_id = m1.form_id) (hok : addForm f m1 = .ok f') :
    addForm f' m2 = .error (.duplicateInsertion, f') ∧
      dget m1.form_id f'.forms = some m1 := by
  rcases addForm_ok hok with ⟨_, _, hnot, hf'⟩
  have hforms : f'.forms = f.forms ++ [(m1.form_id, m1)] := by rw [hf']
  have hmeta1 : f'.filer_id = f.filer_id := by rw [hf']
  have hmeta2 : f'.year = f.year := by rw [hf']
  have hget : dget m1.form_id f'.forms = some m1 := by
    rw [hforms, dget_append_right (dget_eq_none_of_not_mem hnot), dget, if_pos rfl]
  refine ⟨?_, hget⟩
  rw [addForm, if_neg (by rw [h3, hmeta1]; exact fun hc => hc rfl),
    if_neg (by rw [h4, hmeta2]; exact fun hc => hc rfl), update_dict_ex,
    if_pos (by rw [h5]; exact dget_isSome_iff.mp (by rw [hget]; rfl))]

/-- Closed instantiation of the C3 duplicate theorem. -/
theorem addForm_duplicate_keeps_first_witness :
    addForm { emptyFiling with forms := [(['g'], dupFormA)] } dupFormB =
        .error (.duplicateInsertion, { emptyFiling with forms := [(['g'], dupFormA)] }) ∧
      dget dupFormA.form_id ({ emptyFiling with forms := [(['g'], dupFormA)] } : Filing).forms =
        some dupFormA :=
  addForm_duplicate_keeps_first emptyFiling
    { emptyFiling with forms := [(['g'], dupFormA)] } dupFormA dupFormB
    (by decide) (by decide) (by decide) (by decide) (by decide) rfl

/-- C9 counterexample: the key `"a/b/c"` contains a separator, yet the parse
fails (Python's `split('/')` yields three parts and the two-variable
unpacking raises `ValueError`); and the key `"a/"` parses into a pair whose
second component is empty.  Both refute the claim that every key containing
a separator splits into exactly two non-empty components at the first
separator without failing. -/
theorem splitKey_claim_cex :
    splitKey ['a', '/', 'b', '/', 'c'] = none ∧
      splitKey ['a', '/'] = some (['a'], []) := by
  decide

/-- C9 (amended): the composite-key parse shared by `fields_read`,
`fields_written` and `_write_store` succeeds iff the key contains exactly one
separator, and then splits the key at that separator into its (possibly
empty) prefix and suffix.  Keys with two or more separators make the parse
fail. -/
theorem splitKey_exactly_one_sep :
    (∀ s : List Char, (splitKey s).isSome ↔ countSep '/' s = 1) ∧
      (∀ a b : List Char, '/' ∉ a → '/' ∉ b → splitKey (a ++ '/' :: b) = some (a, b)) :=
  ⟨fun _ => splitKey_isSome_iff, fun _ _ ha hb => splitKey_append ha hb⟩

/-- Closed instantiation of the amended C9 theorem. -/
theorem splitKey_exactly_one_sep_witness :
    splitKey (['a'] ++ '/' :: ['b']) = some (['a'], ['b']) :=
  splitKey_exactly_one_sep.2 ['a'] ['b'] (by decide) (by decide)

/-- C6 counterexample: with all three reserved rvar names unset (`None`),
`rvars_generated` returns normally — `set.update` happily inserts `None` —
instead of failing as a configuration error.  The returned set is the base
mapper's set plus the single element `None`. -/
theorem rvarsGenerated_unset_cex :
    rvarsGenerated unsetFilingClass 2017 = [some "g", none] := by
  decide

/-- C6 (amended): when a subclass leaves any reserved rvar name unset,
`rvars_generated(year)` still returns normally; the unset marker (`None`)
simply appears as an element of the returned set. -/
theorem rvarsGenerated_unset_contains_none (c : FilingClass) (y : Nat)
    (h : c.FILER_ID_RVAR = none ∨ c.FILING_YEAR_RVAR = none ∨ c.WEIGHT_RVAR = none) :
    none ∈ rvarsGenerated c y := by
  rw [rvarsGenerated]
  rcases h with h | h | h <;> exact mem_sunion.mpr (Or.inr (by simp [h]))

/-- Closed instantiation of the amended C6 theorem. -/
theorem rvarsGenerated_unset_contains_none_witness :
    none ∈ rvarsGenerated unsetFilingClass 2017 :=
  rvarsGenerated_unset_contains_none unsetFilingClass 2017 (Or.inl rfl)

/-- C4: when the three reserved rvar names are configured (set and pairwise
distinct, as the spec's configuration responsibility requires), `read_rvars()`
maps the filer-id rvar to `str(filer_id)`, the filing-year rvar to
`str(year)`, the weight rvar to `"1"`, and preserves every entry of the base
mapper's own output at every non-reserved key. -/
theorem readRvars_reserved_and_base (c : FilingClass) (f : Filing)
    (superOut : List (String × String)) (rf ry rwt : String)
    (hf : c.FILER_ID_RVAR = some rf) (hy : c.FILING_YEAR_RVAR = some ry)
    (hw : c.WEIGHT_RVAR = some rwt)
    (hfy : rf ≠ ry) (hfw : rf ≠ rwt) (hyw : ry ≠ rwt)
    (hnd : (dkeys superOut).Nodup) :
    dget (some rf) (readRvars c f superOut) = some f.filer_id ∧
    dget (some ry) (readRvars c f superOut) = some (toString f.year) ∧
    dget (some rwt) (readRvars c f superOut) = some "1" ∧
    ∀ k v, (k, v) ∈ superOut → k ≠ rf → k ≠ ry → k ≠ rwt →
      dget (some k) (readRvars c f superOut) = some v := by
  have hbase : dkeys (superOut.map (fun p => ((some p.1 : Option String), p.2))) =
      (dkeys superOut).map some := by
    rw [dkeys, dkeys, List.map_map, List.map_map]
    rfl
  have hbasend : (dkeys (superOut.map (fun p => ((some p.1 : Option String), p.2)))).Nodup := by
    rw [hbase]
    exact hnd.map (Option.some_injective String)
  rw [readRvars, hf, hy, hw]
  refine ⟨?_, ?_, ?_, ?_⟩
  · rw [dget_dset_ne (fun hc => hfw (Option.some.inj hc)),
      dget_dset_ne (fun hc => hfy (Option.some.inj hc)), dget_dset_self]
  · rw [dget_dset_ne (fun hc => hyw (Option.some.inj hc)), dget_dset_self]
  · rw [dget_dset_self]
  · intro k v hkv h1 h2 h3
    rw [dget_dset_ne (fun hc => h3 (Option.some.inj hc)),
      dget_dset_ne (fun hc => h2 (Option.some.inj hc)),
      dget_dset_ne (fun hc => h1 (Option.some.inj hc))]
    exact dget_eq_some_of_mem_nodup hbasend (List.mem_map.mpr ⟨(k, v), hkv, rfl⟩)

/-- Closed instantiation of the C4 theorem at a concrete class and filing. -/
theorem readRvars_reserved_and_base_witness :
    dget (some "fid") (readRvars exFilingClass rtFiling [("x", "7")]) = some "0" ∧
    dget (some "year") (readRvars exFilingClass rtFiling [("x", "7")]) = some "2017" ∧
    dget (some "wt") (readRvars exFilingClass rtFiling [("x", "7")]) = some "1" ∧
    dget (some "x") (readRvars exFilingClass rtFiling [("x", "7")]) = some "7" := by
  have h := readRvars_reserved_and_base exFilingClass rtFiling [("x", "7")]
    "fid" "year" "wt" rfl rfl rfl (by decide) (by decide) (by decide) (by decide)
  exact ⟨h.1, h.2.1, h.2.2.1, h.2.2.2 "x" "7" (by decide) (by decide) (by decide) (by decide)⟩

/-! ### fields_*_with_forms lemmas -/

theorem groupByForm_nodup_aux :
    ∀ (keys : List (List Char)) (acc res : List (List Char × List (List Char))),
      (dkeys acc).Nodup → groupByForm keys acc = .ok res → (dkeys res).Nodup := by
  intro keys
  induction keys with
  | nil =>
    intro acc res hnd h
    rw [groupByForm] at h
    injection h with h'
    exact h' ▸ hnd
  | cons key rest ih =>
    intro acc res hnd h
    rw [groupByForm] at h
    cases hs : splitKey key with
    | none => rw [hs] at h; cases h
    | some q =>
      rw [hs] at h
      exact ih _ _ (nodup_dkeys_dset hnd) h

theorem fieldsRead_nodup {c : FilingClass} {y : Nat}
    {own : List (List Char × List (List Char))} (h : fieldsRead c y = .ok own) :
    (dkeys own).Nodup :=
  groupByForm_nodup_aux _ _ _ (by simp [dkeys]) h

theorem fieldsWritten_nodup {c : FilingClass} {y : Nat}
    {own : List (List Char × List (List Char))} (h : fieldsWritten c y = .ok own) :
    (dkeys own).Nodup :=
  groupByForm_nodup_aux _ _ _ (by simp [dkeys]) h

theorem buildBase_eq (c : FilingClass) (sel : FormClass → Nat → List (List Char)) (y : Nat) :
    buildBase c sel y = dictComp (c.FORM_CLASSES_BY_ID.map (fun p => (p.1, sel p.2 y))) := by
  rw [buildBase, dictComp, List.foldl_map]

theorem mem_dkeys_buildBase {c : FilingClass} {sel : FormClass → Nat → List (List Char)}
    {y : Nat} {x : List Char} :
    x ∈ dkeys (buildBase c sel y) ↔ x ∈ dkeys c.FORM_CLASSES_BY_ID := by
  rw [buildBase_eq, mem_dkeys_dictComp, dkeys, dkeys, List.map_map]
  exact Iff.rfl

theorem dget_buildBase {c : FilingClass} {sel : FormClass → Nat → List (List Char)}
    {y : Nat} {fid : List Char} {fc : FormClass}
    (hnd : (dkeys c.FORM_CLASSES_BY_ID).Nodup) (hmem : (fid, fc) ∈ c.FORM_CLASSES_BY_ID) :
    dget fid (buildBase c sel y) = some (sel fc y) := by
  have hnd' : (dkeys (c.FORM_CLASSES_BY_ID.map (fun p => (p.1, sel p.2 y)))).Nodup := by
    rw [dkeys, List.map_map]
    exact hnd
  rw [buildBase_eq, dictComp_eq_self hnd']
  exact dget_eq_some_of_mem_nodup hnd' (List.mem_map.mpr ⟨(fid, fc), hmem, rfl⟩)

theorem mergeOwn_lookup_none :
    ∀ {own base res : List (List Char × List (List Char))},
      mergeOwn own base = .ok res → ∀ {fid : List Char}, dget fid own = none →
      dget fid res = dget fid base := by
  intro own
  induction own with
  | nil =>
    intro base res h fid _
    rw [mergeOwn] at h
    injection h with h'
    rw [h']
  | cons p rest ih =>
    intro base res h fid ho
    obtain ⟨k, s2⟩ := p
    rw [mergeOwn] at h
    rw [dget] at ho
    by_cases hk : k = fid
    · rw [if_pos hk] at ho; cases ho
    · rw [if_neg hk] at ho
      cases hb : dget k base with
      | none => rw [hb] at h; cases h
      | some s =>
        rw [hb] at h
        rw [ih h ho, dget_dset_ne (fun hc => hk hc.symm)]

theorem mergeOwn_lookup_some :
    ∀ {own base res : List (List Char × List (List Char))},
      (dkeys own).Nodup → mergeOwn own base = .ok res →
      ∀ {fid : List Char} {s2 : List (List Char)}, dget fid own = some s2 →
      dget fid res = (dget fid base).map (fun s => sunion s s2) := by
  intro own
  induction own with
  | nil =>
    intro base res _ h fid s2 ho
    rw [dget] at ho
    cases ho
  | cons p rest ih =>
    intro base res hnd h fid s2 ho
    obtain ⟨k, t⟩ := p
    rw [mergeOwn] at h
    rw [dget] at ho
    rw [dkeys, List.map_cons, List.nodup_cons] at hnd
    cases hb : dget k base with
    | none => rw [hb] at h; cases h
    | some s =>
      rw [hb] at h
      by_cases hk : k = fid
      · rw [if_pos hk] at ho
        have ht : t = s2 := Option.some.inj ho
        subst ht
        subst hk
        have hrest : dget k rest = none := dget_eq_none_of_not_mem hnd.1
        rw [mergeOwn_lookup_none h hrest, dget_dset_self, hb]
        rfl
      · rw [if_neg hk] at ho
        rw [ih hnd.2 h ho, dget_dset_ne (fun hc => hk hc.symm)]

theorem mergeOwn_err :
    ∀ {own base : List (List Char × List (List Char))},
      (∃ fid ∈ dkeys own, fid ∉ dkeys base) → mergeOwn own base = .error .keyError := by
  intro own
  induction own with
  | nil =>
    rintro base ⟨fid, hfid, _⟩
    simp [dkeys] at hfid
  | cons p rest ih =>
    rintro base ⟨fid, hfid, hnb⟩
    obtain ⟨k, t⟩ := p
    rw [mergeOwn]
    cases hb : dget k base with
    | none => rfl
    | some s =>
      refine ih ⟨fid, ?_, ?_⟩
      · rcases List.mem_cons.mp (by rwa [dkeys, List.map_cons] at hfid) with h | h
        · exfalso
          apply hnb
          rw [h]
          exact dget_isSome_iff.mp (by rw [hb]; rfl)
        · exact h
      · intro hc
        rcases mem_dkeys_dset.mp hc with hc | hc
        · exact hnb hc
        · apply hnb
          rw [hc]
          exact dget_isSome_iff.mp (by rw [hb]; rfl)

theorem mergeOwn_ok :
    ∀ {own base : List (List Char × List (List Char))},
      (∀ fid ∈ dkeys own, fid ∈ dkeys base) →
      ∃ res, mergeOwn own base = .ok res := by
  intro own
  induction own with
  | nil => exact fun _ => ⟨_, rfl⟩
  | cons p rest ih =>
    intro base hall
    obtain ⟨k, t⟩ := p
    rw [mergeOwn]
    have hk : k ∈ dkeys base := hall k (by rw [dkeys, List.map_cons]; exact List.mem_cons_self _ _)
    cases hb : dget k base with
    | none =>
      exfalso
      have := dget_isSome_iff.mpr hk
      rw [hb] at this
      cases this
    | some s =>
      refine ih (fun fid hfid => ?_)
      exact mem_dkeys_dset.mpr (Or.inl (hall fid
        (by rw [dkeys, List.map_cons]; exact List.mem_cons_of_mem _ hfid)))

/-- C7: for a filing class declaring form class `A` under id `"A"`, the entry
of `fields_read_with_forms(year)` at `"A"` is the union (`sunion`, the
embedded Python set union) of `A.fields_read(year)` with the fields the
filing's own `fields_read(year)` declares for `"A"` (the empty set when it
declares none). -/
theorem fieldsReadWithForms_union (c : FilingClass) (y : Nat) (fidA : List Char)
    (fcA : FormClass) (own res : List (List Char × List (List Char)))
    (hnd : (dkeys c.FORM_CLASSES_BY_ID).Nodup)
    (hreg : (fidA, fcA) ∈ c.FORM_CLASSES_BY_ID)
    (hown : fieldsRead c y = .ok own)
    (hok : fieldsReadWithForms c y = .ok res) :
    dget fidA res = some (sunion (fcA.fields_read y) ((dget fidA own).getD [])) := by
  rw [fieldsReadWithForms, hown] at hok
  have hbase : dget fidA (buildBase c (fun fc => fc.fields_read) y) =
      some (fcA.fields_read y) := dget_buildBase hnd hreg
  cases ho : dget fidA own with
  | none =>
    rw [mergeOwn_lookup_none hok ho, hbase, Option.getD_none]
    rfl
  | some s2 =>
    rw [mergeOwn_lookup_some (fieldsRead_nodup hown) hok ho, hbase, Option.getD_some]
    rfl

/-- Closed instantiation of the C7 theorem at a concrete filing class. -/
theorem fieldsReadWithForms_union_witness :
    dget ['A'] [(['A'], [['a'], ['b']])] =
      some (sunion (exFormClass.fields_read 2017)
        ((dget ['A'] [(['A'], [['b']])]).getD [])) :=
  fieldsReadWithForms_union exFilingClass 2017 ['A'] exFormClass
    [(['A'], [['b']])] [(['A'], [['a'], ['b']])]
    (by decide) (List.mem_singleton.mpr rfl) rfl rfl

/-- C10: read or written filing-level declarations under a form id absent
from `FORM_CLASSES_BY_ID` make `fields_read_with_forms` /
`fields_written_with_forms` raise `KeyError`; when every filing-declared
form id appears in the registry, both calls return normally. -/
theorem withForms_key_lookup (c : FilingClass) (y : Nat) :
    (∀ own, fieldsRead c y = .ok own →
      ((∃ fid ∈ dkeys own, fid ∉ dkeys c.FORM_CLASSES_BY_ID) →
          fieldsReadWithForms c y = .error .keyError) ∧
      ((∀ fid ∈ dkeys own, fid ∈ dkeys c.FORM_CLASSES_BY_ID) →
          ∃ res, fieldsReadWithForms c y = .ok res)) ∧
    (∀ own, fieldsWritten c y = .ok own →
      ((∃ fid ∈ dkeys own, fid ∉ dkeys c.FORM_CLASSES_BY_ID) →
          fieldsWrittenWithForms c y = .error .keyError) ∧
      ((∀ fid ∈ dkeys own, fid ∈ dkeys c.FORM_CLASSES_BY_ID) →
          ∃ res, fieldsWrittenWithForms c y = .ok res)) := by
  constructor
  · intro own hown
    constructor
    · rintro ⟨fid, hfid, hnreg⟩
      rw [fieldsReadWithForms, hown]
      exact mergeOwn_err ⟨fid, hfid, fun hc => hnreg (mem_dkeys_buildBase.mp hc)⟩
    · intro hall
      rw [fieldsReadWithForms, hown]
      exact mergeOwn_ok (fun fid hfid => mem_dkeys_buildBase.mpr (hall fid hfid))
  · intro own hown
    constructor
    · rintro ⟨fid, hfid, hnreg⟩
      rw [fieldsWrittenWithForms, hown]
      exact mergeOwn_err ⟨fid, hfid, fun hc => hnreg (mem_dkeys_buildBase.mp hc)⟩
    · intro hall
      rw [fieldsWrittenWithForms, hown]
      exact mergeOwn_ok (fun fid hfid => mem_dkeys_buildBase.mpr (hall fid hfid))

/-- Closed instantiation of the C10 theorem: a class whose filing-level
declarations mention `"A"` with an empty registry raises `KeyError` in both
directions. -/
theorem withForms_key_lookup_witness :
    fieldsReadWithForms danglingFilingClass 2017 = .error .keyError ∧
      fieldsWrittenWithForms danglingFilingClass 2017 = .error .keyError := by
  have h := withForms_key_lookup danglingFilingClass 2017
  exact ⟨(h.1 [(['A'], [['b']])] rfl).1 ⟨['A'], by decide, by decide⟩,
    (h.2 [(['A'], [['x']])] rfl).1 ⟨['A'], by decide, by decide⟩⟩

/-! ### Invariant and idempotence machinery -/

theorem addForm_meta {f : Filing} {m : Form} {f' : Filing} (h : addForm f m = .ok f') :
    f'.year = f.year ∧ f'.filer_id = f.filer_id := by
  rcases addForm_ok h with ⟨_, _, _, hf'⟩
  subst hf'
  exact ⟨rfl, rfl⟩

theorem addForm_formsOk {f : Filing} {m : Form} {f' : Filing}
    (hf : FormsOk f) (h : addForm f m = .ok f') : FormsOk f' := by
  rcases addForm_ok h with ⟨h1, h2, _, hf'⟩
  subst hf'
  intro p hp
  rcases List.mem_append.mp hp with hp | hp
  · exact hf p hp
  · rcases List.mem_singleton.mp hp with rfl
    exact ⟨h1, h2⟩

theorem writeStoreStep_formsOk {f : Filing} {kv : List Char × String} (hf : FormsOk f) :
    (∀ f', writeStoreStep f kv = .ok f' → FormsOk f') ∧
    (∀ e f', writeStoreStep f kv = .error (e, f') → FormsOk f') := by
  constructor
  · intro f' h
    rw [writeStoreStep] at h
    split at h
    · cases h
    · split at h
      · cases h
      · rename_i form hg
        injection h with h'
        subst h'
        intro p hp
        rcases mem_dset hp with hp | hp
        · exact hf p hp
        · have hm := hf _ (mem_of_dget_eq_some hg)
          subst hp
          exact hm
  · intro e f' h
    rw [writeStoreStep] at h
    split at h
    · injection h with h'
      injection h' with h1 h2
      exact h2 ▸ hf
    · split at h
      · injection h with h'
        injection h' with h1 h2
        exact h2 ▸ hf
      · cases h

theorem writeStoreGo_formsOk :
    ∀ (data : List (List Char × String)) (f : Filing), FormsOk f →
      (∀ f', writeStoreGo f data = .ok f' → FormsOk f') ∧
      (∀ e f', writeStoreGo f data = .error (e, f') → FormsOk f') := by
  intro data
  induction data with
  | nil =>
    intro f hf
    constructor
    · intro f' h
      rw [writeStoreGo] at h
      injection h with h'
      exact h' ▸ hf
    · intro e f' h
      rw [writeStoreGo] at h
      cases h
  | cons kv rest ih =>
    intro f hf
    constructor
    · intro f' h
      rw [writeStoreGo] at h
      cases hs : writeStoreStep f kv with
      | error e => rw [hs] at h; cases h
      | ok f1 =>
        rw [hs] at h
        exact (ih f1 ((writeStoreStep_formsOk hf).1 f1 hs)).1 f' h
    · intro e f' h
      rw [writeStoreGo] at h
      cases hs : writeStoreStep f kv with
      | error e1 =>
        rw [hs] at h
        injection h with h'
        obtain ⟨e1a, f1⟩ := e1
        injection h' with ha hb
        exact hb ▸ (writeStoreStep_formsOk hf).2 e1a f1 hs
      | ok f1 =>
        rw [hs] at h
        exact (ih f1 ((writeStoreStep_formsOk hf).1 f1 hs)).2 e f' h

theorem ensureGo_formsOk (c : FilingClass) :
    ∀ (keys : List (List Char)) (f : Filing), FormsOk f →
      (∀ f', ensureGo c keys f = .ok f' → FormsOk f') ∧
      (∀ e f', ensureGo c keys f = .error (e, f') → FormsOk f') := by
  intro keys
  induction keys with
  | nil =>
    intro f hf
    constructor
    · intro f' h
      rw [ensureGo] at h
      injection h with h'
      exact h' ▸ hf
    · intro e f' h
      rw [ensureGo] at h
      cases h
  | cons fid rest ih =>
    intro f hf
    constructor
    · intro f' h
      rw [ensureGo] at h
      split at h
      · exact (ih f hf).1 f' h
      · split at h
        · cases h
        · rename_i fc hr
          split at h
          · cases h
          · rename_i f1 ha
            exact (ih f1 (addForm_formsOk hf ha)).1 f' h
    · intro e f' h
      rw [ensureGo] at h
      split at h
      · exact (ih f hf).2 e f' h
      · split at h
        · injection h with h'
          injection h' with ha hb
          exact hb ▸ hf
        · rename_i fc hr
          split at h
          · rename_i e1 ha
            injection h with h'
            subst h'
            exact (addForm_err ha) ▸ hf
          · rename_i f1 ha
            exact (ih f1 (addForm_formsOk hf ha)).2 e f' h

theorem ensureGo_meta (c : FilingClass) :
    ∀ (keys : List (List Char)) (f f' : Filing), ensureGo c keys f = .ok f' →
      f'.year = f.year ∧ f'.filer_id = f.filer_id := by
  intro keys
  induction keys with
  | nil =>
    intro f f' h
    rw [ensureGo] at h
    injection h with h'
    rw [h']
    exact ⟨rfl, rfl⟩
  | cons fid rest ih =>
    intro f f' h
    rw [ensureGo] at h
    split at h
    · exact ih f f' h
    · split at h
      · cases h
      · rename_i fc hr
        split at h
        · cases h
        · rename_i f1 ha
          rcases ih f1 f' h with ⟨hy, hf⟩
          rcases addForm_meta ha with ⟨hy1, hf1⟩
          exact ⟨hy.trans hy1, hf.trans hf1⟩

theorem ensureGo_mono (c : FilingClass) :
    ∀ (keys : List (List Char)) (f f' : Filing), ensureGo c keys f = .ok f' →
      ∀ k, (dget k f.forms).isSome → (dget k f'.forms).isSome := by
  intro keys
  induction keys with
  | nil =>
    intro f f' h k hk
    rw [ensureGo] at h
    injection h with h'
    exact h' ▸ hk
  | cons fid rest ih =>
    intro f f' h k hk
    rw [ensureGo] at h
    split at h
    · exact ih f f' h k hk
    · split at h
      · cases h
      · rename_i fc hr
        split at h
        · cases h
        · rename_i f1 ha
          refine ih f1 f' h k ?_
          rcases addForm_ok ha with ⟨_, _, _, hf1⟩
          subst hf1
          rcases Option.isSome_iff_exists.mp hk with ⟨v, hv⟩
          rw [dget_append_left hv]
          rfl

theorem ensureGo_complete (c : FilingClass) (y : Nat) (fid0 : String)
    (Hc : ∀ p ∈ c.FORM_CLASSES_BY_ID, (p.2.new y fid0).form_id = p.1) :
    ∀ (keys : List (List Char)) (f f' : Filing), f.year = y → f.filer_id = fid0 →
      ensureGo c keys f = .ok f' → ∀ fid ∈ keys, (dget fid f'.forms).isSome := by
  intro keys
  induction keys with
  | nil =>
    intro f f' _ _ _ fid hfid
    cases hfid
  | cons k rest ih =>
    intro f f' hy hfid0 h fid hfid
    rw [ensureGo] at h
    split at h
    · rename_i hp
      rcases List.mem_cons.mp hfid with rfl | hm
      · exact ensureGo_mono c rest f f' h fid hp
      · exact ih f f' hy hfid0 h fid hm
    · rename_i hp
      split at h
      · cases h
      · rename_i fc hr
        split at h
        · cases h
        · rename_i f1 ha
          have hid : (fc.new f.year f.filer_id).form_id = k := by
            rw [hy, hfid0]
            exact Hc (k, fc) (mem_of_dget_eq_some hr)
          have hk1 : (dget k f1.forms).isSome := by
            rcases addForm_ok ha with ⟨_, _, _, hf1⟩
            subst hf1
            have hnone : dget k f.forms = none := by
              cases hg : dget k f.forms with
              | none => rfl
              | some v => rw [hg] at hp; exact absurd rfl hp
            rw [dget_append_right hnone, hid, dget, if_pos rfl]
            rfl
          rcases addForm_meta ha with ⟨hy1, hf1⟩
          rcases List.mem_cons.mp hfid with rfl | hm
          · exact ensureGo_mono c rest f1 f' h fid hk1
          · exact ih f1 f' (hy1.trans hy) (hf1.trans hfid0) h fid hm

theorem ensureGo_all_present (c : FilingClass) :
    ∀ (keys : List (List Char)) (f : Filing),
      (∀ fid ∈ keys, (dget fid f.forms).isSome) → ensureGo c keys f = .ok f := by
  intro keys
  induction keys with
  | nil => intro f _; rfl
  | cons k rest ih =>
    intro f hall
    rw [ensureGo, if_pos (hall k (List.mem_cons_self _ _))]
    exact ih f (fun fid hfid => hall fid (List.mem_cons_of_mem _ hfid))

theorem foldl_preserves {A B : Type} (P : A → Prop) (step : A → B → A)
    (h : ∀ a b, P a → P (step a b)) :
    ∀ (l : List B) (a : A), P a → P (l.foldl step a) := by
  intro l
  induction l with
  | nil => intro a ha; exact ha
  | cons b rest ih =>
    intro a ha
    rw [List.foldl_cons]
    exact ih _ (h a b ha)

/-- C8: when the class registry is well-configured (each declared form class
constructs a form carrying the declared form id — `add_form` itself enforces
the filer id and year), a second call of `ensure_written_forms_available`
immediately after a successful first call adds no form and changes nothing:
it returns the same filing. -/
theorem ensureWritten_idempotent (c : FilingClass) (f f' : Filing)
    (Hc : ∀ p ∈ c.FORM_CLASSES_BY_ID, (p.2.new f.year f.filer_id).form_id = p.1)
    (hok : ensureWrittenFormsAvailable c f = .ok f') :
    ensureWrittenFormsAvailable c f' = .ok f' := by
  rw [ensureWrittenFormsAvailable] at hok
  cases hw : fieldsWrittenWithForms c f.year with
  | error e => rw [hw] at hok; cases hok
  | ok res =>
    rw [hw] at hok
    have hmeta := ensureGo_meta c (dkeys res) f f' hok
    rw [ensureWrittenFormsAvailable, hmeta.1, hw]
    exact ensureGo_all_present c (dkeys res) f'
      (fun fid hfid =>
        ensureGo_complete c f.year f.filer_id Hc (dkeys res) f f' rfl rfl hok fid hfid)

/-- Closed instantiation of the C8 idempotence theorem: the filing obtained by
one `ensure_written_forms_available` run from the empty filing is a fixed
point of a second run. -/
theorem ensureWritten_idempotent_witness :
    ensureWrittenFormsAvailable exFilingClass ensuredFiling = .ok ensuredFiling :=
  ensureWritten_idempotent exFilingClass emptyFiling ensuredFiling (by decide) rfl

/-- C5: every form held by a filing carries the filing's filer id and year:
this holds at construction (empty form set) and is preserved — on both the
normal and the raising path — by every embedded operation that can change
the forms or their contents: `add_form`, `drop_empty_forms`,
`ensure_written_forms_available`, `_write_store` and `fill_inputs`. -/
theorem forms_filer_year_invariant :
    (∀ (y : Nat) (fid : String), FormsOk (initFiling y fid)) ∧
    (∀ f m f', FormsOk f → addForm f m = .ok f' → FormsOk f') ∧
    (∀ f m e f', FormsOk f → addForm f m = .error (e, f') → FormsOk f') ∧
    (∀ f, FormsOk f → FormsOk (dropEmptyForms f)) ∧
    (∀ c f f', FormsOk f → ensureWrittenFormsAvailable c f = .ok f' → FormsOk f') ∧
    (∀ c f e f', FormsOk f → ensureWrittenFormsAvailable c f = .error (e, f') → FormsOk f') ∧
    (∀ f data f', FormsOk f → writeStore f data = .ok f' → FormsOk f') ∧
    (∀ f data e f', FormsOk f → writeStore f data = .error (e, f') → FormsOk f') ∧
    (∀ c f f', FormsOk f → fillInputs c f = .ok f' → FormsOk f') ∧
    (∀ c f e f', FormsOk f → fillInputs c f = .error (e, f') → FormsOk f') := by
  refine ⟨?_, ?_, ?_, ?_, ?_, ?_, ?_, ?_, ?_, ?_⟩
  · intro y fid p hp
    cases hp
  · intro f m f' hf h
    exact addForm_formsOk hf h
  · intro f m e f' hf h
    exact (addForm_err h) ▸ hf
  · intro f hf p hp
    exact hf p (List.mem_filter.mp hp).1
  · intro c f f' hf h
    rw [ensureWrittenFormsAvailable] at h
    cases hw : fieldsWrittenWithForms c f.year with
    | error e => rw [hw] at h; cases h
    | ok res =>
      rw [hw] at h
      exact (ensureGo_formsOk c (dkeys res) f hf).1 f' h
  · intro c f e f' hf h
    rw [ensureWrittenFormsAvailable] at h
    cases hw : fieldsWrittenWithForms c f.year with
    | error e1 =>
      rw [hw] at h
      injection h with h'
      injection h' with ha hb
      exact hb ▸ hf
    | ok res =>
      rw [hw] at h
      exact (ensureGo_formsOk c (dkeys res) f hf).2 e f' h
  · intro f data f' hf h
    exact (writeStoreGo_formsOk data f hf).1 f' h
  · intro f data e f' hf h
    exact (writeStoreGo_formsOk data f hf).2 e f' h
  · intro c f f' hf h
    rw [fillInputs] at h
    cases hw : fieldsRead c f.year with
    | error e => rw [hw] at h; cases h
    | ok m =>
      rw [hw] at h
      injection h with h'
      rw [← h']
      refine foldl_preserves FormsOk _ ?_ m f hf
      intro g p hg
      by_cases hp : (dget p.1 g.forms).isSome
      · rw [if_pos hp]
        refine foldl_preserves FormsOk _ ?_ p.2 g hg
        intro g' field hg'
        cases hform : dget p.1 g'.forms with
        | none => exact hg'
        | some form =>
          intro q hq
          rcases mem_dset hq with hq | hq
          · exact hg' q hq
          · have hm := hg' _ (mem_of_dget_eq_some hform)
            subst hq
            exact hm
      · rw [if_neg hp]
        exact hg
  · intro c f e f' hf h
    rw [fillInputs] at h
    cases hw : fieldsRead c f.year with
    | error e1 =>
      rw [hw] at h
      injection h with h'
      injection h' with ha hb
      exact hb ▸ hf
    | ok m => rw [hw] at h; cases h

/-- Closed instantiation of the C5 invariant theorem: the invariant at
construction and after a concrete successful `add_form`. -/
theorem forms_filer_year_invariant_witness :
    FormsOk (initFiling 2017 "0") ∧
      FormsOk { emptyFiling with forms := [(['g'], dupFormA)] } :=
  ⟨forms_filer_year_invariant.1 2017 "0",
    forms_filer_year_invariant.2.1 emptyFiling dupFormA
      { emptyFiling with forms := [(['g'], dupFormA)] } (by decide) rfl⟩

end TaxFiling
